import Mathlib

/-!
Verification of the MMPR walk-network export scripts.

This file shallowly embeds the two Python scripts
`scripts/generate_kista_graphology.py` (keyed-multigraph mode) and
`scripts/generate_walk_network.py` (undirected-simple mode) and proves the
specification's claims about them.

Python attribute values (OSM tags) are modelled by the inductive type `Val`
(strings, rationals for floats, booleans, `None`).  Python dicts are modelled
by association lists `List (String × Val)` in insertion order; `dict.get`
becomes `tagsGetD`.  OSM node identifiers and parallel-edge keys are natural
numbers (OSM ids are integers), and Python's `str()` / f-string interpolation
of them is `Nat.repr`.
-/

namespace MMPR

/-- A Python attribute value: `None`, a bool, a number (floats modelled as
rationals) or a string. -/
inductive Val where
  | vNull : Val
  | vBool : Bool → Val
  | vNum : ℚ → Val
  | vStr : String → Val
deriving DecidableEq, Repr, Inhabited

open Val

/-- Python truthiness of a `Val` (`None`, `False`, `0` and `""` are falsy). -/
def truthy : Val → Bool
  | vNull => false
  | vBool b => b
  | vNum q => decide (q ≠ 0)
  | vStr s => decide (s ≠ "")

/-- `d.get(k, default)` on a Python dict modelled as an association list. -/
def tagsGetD (tags : List (String × Val)) (k : String) (d : Val) : Val :=
  (tags.lookup k).getD d

/-- `dict[k] = v` on a Python dict: replace the value of the first matching
key in place, or append a new entry at the end (insertion order). -/
def dictUpsert {α : Type} : List (String × α) → String → α → List (String × α)
  | [], k, v => [(k, v)]
  | p :: ps, k, v => if p.1 = k then (k, v) :: ps else p :: dictUpsert ps k v

/-! ### Decimal representations of naturals

The scripts interpolate integer node ids and edge keys into strings
(`f"{u}-{v}-{key}"`, `f"edge_{u}_{v}"`, `str(node)`).  We prove that
`Nat.repr` produces only decimal digit characters and is injective. -/

theorem digitChar_isDigit (d : Nat) (h : d < 10) : (Nat.digitChar d).isDigit = true := by
  interval_cases d <;> decide

theorem digitChar_inj (a b : Nat) (ha : a < 10) (hb : b < 10)
    (h : Nat.digitChar a = Nat.digitChar b) : a = b := by
  interval_cases a <;> interval_cases b <;> revert h <;> decide

/-- `Nat.toDigitsCore` with enough fuel computes the (reversed, char-mapped)
little-endian digit list of `Nat.digits`. -/
theorem toDigitsCore_eq_digits (f : Nat) :
    ∀ n acc, n ≠ 0 → n < f →
      Nat.toDigitsCore 10 f n acc =
        ((Nat.digits 10 n).map Nat.digitChar).reverse ++ acc := by
  induction f with
  | zero => intro n acc _ h; omega
  | succ f ih =>
    intro n acc hn hf
    rw [Nat.digits_def' (by norm_num : 1 < 10) (Nat.pos_of_ne_zero hn)]
    by_cases hdiv : n / 10 = 0
    · simp [Nat.toDigitsCore, hdiv]
    · have hstep : Nat.toDigitsCore 10 (f + 1) n acc
          = Nat.toDigitsCore 10 f (n / 10) (Nat.digitChar (n % 10) :: acc) := by
        simp [Nat.toDigitsCore, hdiv]
      rw [hstep, ih (n / 10) (Nat.digitChar (n % 10) :: acc) hdiv
        (by
          have h1 : n / 10 < n := Nat.div_lt_self (Nat.pos_of_ne_zero hn) (by norm_num)
          omega)]
      simp

theorem repr_eq_of_ne_zero (n : Nat) (hn : n ≠ 0) :
    (Nat.repr n).data = ((Nat.digits 10 n).map Nat.digitChar).reverse := by
  unfold Nat.repr Nat.toDigits
  rw [toDigitsCore_eq_digits (n + 1) n [] hn (by omega)]
  simp [List.asString]

theorem repr_zero_data : (Nat.repr 0).data = ['0'] := by decide

/-- Every character of the decimal representation of a natural number is a
digit character. -/
theorem repr_isDigit (n : Nat) : ∀ c ∈ (Nat.repr n).data, c.isDigit = true := by
  by_cases hn : n = 0
  · subst hn; rw [repr_zero_data]; intro c hc; simp at hc; subst hc; decide
  · rw [repr_eq_of_ne_zero n hn]
    intro c hc
    simp only [List.mem_reverse, List.mem_map] at hc
    obtain ⟨d, hd, rfl⟩ := hc
    exact digitChar_isDigit d (Nat.digits_lt_base (by norm_num) hd)

theorem map_digitChar_inj :
    ∀ (l1 l2 : List Nat), (∀ x ∈ l1, x < 10) → (∀ x ∈ l2, x < 10) →
      l1.map Nat.digitChar = l2.map Nat.digitChar → l1 = l2 := by
  intro l1
  induction l1 with
  | nil => intro l2 _ _ h; cases l2 <;> simp_all
  | cons a l ih =>
    intro l2 h1 h2 h
    cases l2 with
    | nil => simp_all
    | cons b l' =>
      simp only [List.map_cons, List.cons.injEq] at h
      have hab : a = b :=
        digitChar_inj a b (h1 a (by simp)) (h2 b (by simp)) h.1
      have := ih l' (fun x hx => h1 x (by simp [hx])) (fun x hx => h2 x (by simp [hx])) h.2
      simp [hab, this]

theorem digits_ne_single_zero (n : Nat) (hn : n ≠ 0) : Nat.digits 10 n ≠ [0] := by
  intro hd
  have h := (Nat.ofDigits_digits 10 n).symm
  rw [hd] at h
  simp [Nat.ofDigits] at h
  exact hn h

/-- A nonzero natural never prints as the single character of zero. -/
theorem repr_ne_zero_data (n : Nat) (hn : n ≠ 0) : (Nat.repr n).data ≠ ['0'] := by
  rw [repr_eq_of_ne_zero n hn]
  intro hdata
  have hlen := congrArg List.length hdata
  simp at hlen
  obtain ⟨d, hd⟩ := List.length_eq_one.mp hlen
  rw [hd] at hdata
  simp at hdata
  have hdlt : d < 10 := Nat.digits_lt_base (by norm_num) (by rw [hd]; simp)
  have hd0 : d = 0 := digitChar_inj d 0 hdlt (by norm_num) (by rw [hdata]; rfl)
  exact digits_ne_single_zero n hn (hd0 ▸ hd)

/-- `Nat.repr` is injective. -/
theorem repr_inj (m n : Nat) (h : Nat.repr m = Nat.repr n) : m = n := by
  have hdata : (Nat.repr m).data = (Nat.repr n).data := by rw [h]
  by_cases hm : m = 0 <;> by_cases hn : n = 0
  · omega
  · exact absurd hdata.symm (by rw [hm, repr_zero_data]; exact repr_ne_zero_data n hn)
  · exact absurd hdata (by rw [hn, repr_zero_data]; exact repr_ne_zero_data m hm)
  · rw [repr_eq_of_ne_zero m hm, repr_eq_of_ne_zero n hn] at hdata
    have hmaps : (Nat.digits 10 m).map Nat.digitChar = (Nat.digits 10 n).map Nat.digitChar :=
      List.reverse_injective hdata
    have hdigits := map_digitChar_inj _ _
      (fun x hx => Nat.digits_lt_base (by norm_num) hx)
      (fun x hx => Nat.digits_lt_base (by norm_num) hx) hmaps
    calc m = Nat.ofDigits 10 (Nat.digits 10 m) := (Nat.ofDigits_digits 10 m).symm
    _ = Nat.ofDigits 10 (Nat.digits 10 n) := by rw [hdigits]
    _ = n := Nat.ofDigits_digits 10 n

theorem repr_no_dash (n : Nat) : '-' ∉ (Nat.repr n).data := by
  intro hc
  have := repr_isDigit n '-' hc
  simp [Char.isDigit] at this

theorem repr_no_underscore (n : Nat) : '_' ∉ (Nat.repr n).data := by
  intro hc
  have := repr_isDigit n '_' hc
  simp [Char.isDigit] at this

theorem string_ext {a b : String} (h : a.data = b.data) : a = b := by
  cases a; cases b; simp_all

theorem string_append_left_cancel {a x y : String} (h : a ++ x = a ++ y) : x = y := by
  have hd : a.data ++ x.data = a.data ++ y.data := by
    rw [← String.data_append, ← String.data_append, h]
  exact string_ext (List.append_cancel_left hd)

/-- Number of dash characters in a string; decimal interpolations of naturals
contribute none, each literal `"-"` contributes one. -/
def dashCount (s : String) : Nat := s.data.count '-'

theorem dashCount_append (a b : String) : dashCount (a ++ b) = dashCount a + dashCount b := by
  unfold dashCount
  rw [String.data_append, List.count_append]

theorem dashCount_repr (n : Nat) : dashCount (Nat.repr n) = 0 :=
  List.count_eq_zero.mpr (repr_no_dash n)

/-! ### Keyed-multigraph mode: `generate_kista_graphology.py`

Raw OSMnx graphs are modelled as lists of nodes and of directed keyed edges.
Node ids and parallel-edge keys are naturals (OSM ids); `length` is the
OSMnx-computed numeric tag, kept separately from the remaining tag bag since
the scripts cast it with `float()`. -/

/-- A raw node in keyed-multigraph mode: coordinates are assumed present
(the script indexes `attrs['y']` / `attrs['x']` directly). -/
structure KNode where
  id : Nat
  y : ℚ
  x : ℚ
  tags : List (String × Val)
deriving DecidableEq, Repr, Inhabited

/-- A raw directed edge of the OSMnx multigraph, identified by
`(u, v, key)` with `key` the parallel-edge index. -/
structure RawEdge where
  u : Nat
  v : Nat
  key : Nat
  length? : Option ℚ
  tags : List (String × Val)
deriving DecidableEq, Repr, Inhabited

structure KGraph where
  nodes : List KNode
  edges : List RawEdge
deriving DecidableEq, Repr, Inhabited

/-- `base_key = f"{u}-{v}-{key}"`. -/
def baseKey (e : RawEdge) : String :=
  Nat.repr e.u ++ "-" ++ Nat.repr e.v ++ "-" ++ Nat.repr e.key

/-- `f"{base_key}-{i}"`. -/
def suffixKey (b : String) (i : Nat) : String := b ++ "-" ++ Nat.repr i

theorem dashCount_baseKey (e : RawEdge) : dashCount (baseKey e) = 2 := by
  unfold baseKey
  simp [dashCount_append, dashCount_repr]
  decide

theorem dashCount_suffixKey (b : String) (i : Nat) :
    dashCount (suffixKey b i) = dashCount b + 1 := by
  unfold suffixKey
  simp [dashCount_append, dashCount_repr]
  decide

theorem suffixKey_right_inj (b : String) {i j : Nat} (h : suffixKey b i = suffixKey b j) :
    i = j := by
  unfold suffixKey at h
  exact repr_inj i j (string_append_left_cancel h)

/-- The `while edge_key in edge_seen` loop of `to_graphology_json`, with
explicit fuel.  At fuel `0` the current candidate is returned; the caller
supplies enough fuel for this never to matter. -/
def freshKeyLoop (base : String) (seen : List String) : Nat → Nat → String
  | 0, i => suffixKey base i
  | f + 1, i =>
    if suffixKey base i ∈ seen then freshKeyLoop base seen f (i + 1) else suffixKey base i

/-- Key disambiguation from `to_graphology_json`: keep `base` if unused,
else try `base-1`, `base-2`, … until an unused string is found. -/
def freshKey (seen : List String) (base : String) : String :=
  if base ∈ seen then freshKeyLoop base seen (seen.length + 1) 1 else base

theorem freshKeyLoop_spec (base : String) (seen : List String) :
    ∀ (f i : Nat), (∃ j, i ≤ j ∧ j ≤ i + f ∧ suffixKey base j ∉ seen) →
      ∃ j, freshKeyLoop base seen f i = suffixKey base j ∧ i ≤ j ∧
        suffixKey base j ∉ seen ∧ ∀ m, i ≤ m → m < j → suffixKey base m ∈ seen := by
  intro f
  induction f with
  | zero =>
    intro i ⟨j, hij, hji, hfree⟩
    have : j = i := by omega
    subst this
    exact ⟨j, rfl, le_refl j, hfree, fun m h1 h2 => absurd (lt_of_le_of_lt h1 h2) (lt_irrefl j)⟩
  | succ f ih =>
    intro i hex
    by_cases hi : suffixKey base i ∈ seen
    · obtain ⟨j, hij, hji, hfree⟩ := hex
      have hji' : i + 1 ≤ j := by
        rcases Nat.eq_or_lt_of_le hij with h | h
        · exact absurd (h ▸ hi) hfree
        · omega
      obtain ⟨j', hj'⟩ := ih (i + 1) ⟨j, hji', by omega, hfree⟩
      refine ⟨j', by simpa [freshKeyLoop, hi] using hj'.1, by omega, hj'.2.2.1, ?_⟩
      intro m h1 h2
      rcases Nat.eq_or_lt_of_le h1 with h | h
      · exact h ▸ hi
      · exact hj'.2.2.2 m h h2
    · exact ⟨i, by simp [freshKeyLoop, hi], le_refl i, hi,
        fun m h1 h2 => absurd (lt_of_le_of_lt h1 h2) (lt_irrefl i)⟩

/-- Pigeonhole: among `seen.length + 1` distinct suffixed candidates at
least one is unused, so the loop's fuel always suffices. -/
theorem exists_free_suffix (seen : List String) (base : String) :
    ∃ j, 1 ≤ j ∧ j ≤ 1 + seen.length ∧ suffixKey base j ∉ seen := by
  by_contra hall
  push_neg at hall
  set L : List String := (List.range (seen.length + 1)).map (fun t => suffixKey base (t + 1))
    with hL
  have hsub : L ⊆ seen := by
    intro s hs
    rw [hL] at hs
    simp only [List.mem_map, List.mem_range] at hs
    obtain ⟨t, ht, rfl⟩ := hs
    exact hall (t + 1) (by omega) (by omega)
  have hnodup : L.Nodup := by
    rw [hL]
    refine List.Nodup.map ?_ (List.nodup_range _)
    intro a b hab
    have := suffixKey_right_inj base hab
    omega
  have hlen : L.length = seen.length + 1 := by rw [hL]; simp
  have := (hnodup.subperm hsub).length_le
  omega

theorem freshKey_not_mem (seen : List String) (base : String) :
    freshKey seen base ∉ seen := by
  unfold freshKey
  by_cases hb : base ∈ seen
  · rw [if_pos hb]
    obtain ⟨j, h1, h2, hfree⟩ := exists_free_suffix seen base
    obtain ⟨j', hj'⟩ := freshKeyLoop_spec base seen (seen.length + 1) 1 ⟨j, h1, by omega, hfree⟩
    rw [hj'.1]
    exact hj'.2.2.1
  · rwa [if_neg hb]

theorem freshKey_of_not_mem (seen : List String) (base : String) (h : base ∉ seen) :
    freshKey seen base = base := by
  unfold freshKey
  rw [if_neg h]

/-- When the base key is taken, the chosen key is `base-j` for the least
free suffix `j ≥ 1`. -/
theorem freshKey_of_mem (seen : List String) (base : String) (h : base ∈ seen) :
    ∃ j, 1 ≤ j ∧ freshKey seen base = suffixKey base j ∧ suffixKey base j ∉ seen ∧
      ∀ m, 1 ≤ m → m < j → suffixKey base m ∈ seen := by
  unfold freshKey
  rw [if_pos h]
  obtain ⟨j, h1, h2, hfree⟩ := exists_free_suffix seen base
  obtain ⟨j', hj'⟩ := freshKeyLoop_spec base seen (seen.length + 1) 1 ⟨j, h1, by omega, hfree⟩
  exact ⟨j', hj'.2.1, hj'.1, hj'.2.2.1, hj'.2.2.2⟩

/-- Any key chosen by `freshKey` is the base key itself or a one-suffix
decoration of it. -/
theorem freshKey_shape (seen : List String) (base : String) :
    freshKey seen base = base ∨ ∃ j, 1 ≤ j ∧ freshKey seen base = suffixKey base j := by
  by_cases h : base ∈ seen
  · obtain ⟨j, h1, h2, _⟩ := freshKey_of_mem seen base h
    exact Or.inr ⟨j, h1, h2⟩
  · exact Or.inl (freshKey_of_not_mem seen base h)

/-- The edge loop of `to_graphology_json`: successively pick a fresh key for
each edge, recording chosen keys in `edge_seen`. -/
def assignEdgeKeys : List RawEdge → List String → List (RawEdge × String)
  | [], _ => []
  | e :: es, seen =>
    let k := freshKey seen (baseKey e)
    (e, k) :: assignEdgeKeys es (k :: seen)

theorem assignEdgeKeys_map_fst (es : List RawEdge) :
    ∀ seen, (assignEdgeKeys es seen).map Prod.fst = es := by
  induction es with
  | nil => intro seen; rfl
  | cons e es ih => intro seen; simp [assignEdgeKeys, ih]

/-- Every key assigned by the loop is fresh: distinct from all previously
assigned keys and from everything already in `edge_seen`. -/
theorem assignEdgeKeys_nodup (es : List RawEdge) :
    ∀ seen, ((assignEdgeKeys es seen).map Prod.snd).Nodup ∧
      ∀ k ∈ (assignEdgeKeys es seen).map Prod.snd, k ∉ seen := by
  induction es with
  | nil => intro seen; simp [assignEdgeKeys]
  | cons e es ih =>
    intro seen
    obtain ⟨ihn, ihm⟩ := ih (freshKey seen (baseKey e) :: seen)
    constructor
    · simp only [assignEdgeKeys, List.map_cons, List.nodup_cons]
      refine ⟨fun hmem => ?_, ihn⟩
      have := ihm _ hmem
      simp at this
    · intro k hk
      simp only [assignEdgeKeys, List.map_cons, List.mem_cons] at hk
      rcases hk with rfl | hk
      · exact freshKey_not_mem seen (baseKey e)
      · have := ihm k hk
        simp at this
        exact this.2

/-- Each assigned key is the base key of its own edge, possibly decorated
with a single numeric suffix. -/
theorem assignEdgeKeys_mem_shape (es : List RawEdge) :
    ∀ seen p, p ∈ assignEdgeKeys es seen →
      p.2 = baseKey p.1 ∨ ∃ j, 1 ≤ j ∧ p.2 = suffixKey (baseKey p.1) j := by
  induction es with
  | nil => intro seen p hp; simp [assignEdgeKeys] at hp
  | cons e es ih =>
    intro seen p hp
    simp only [assignEdgeKeys, List.mem_cons] at hp
    rcases hp with rfl | hp
    · exact freshKey_shape seen (baseKey e)
    · exact ih _ p hp

/-- Processing a concatenation: the tail is processed with all keys chosen
for the head recorded as seen. -/
theorem assignEdgeKeys_append (es1 es2 : List RawEdge) :
    ∀ seen, assignEdgeKeys (es1 ++ es2) seen =
      assignEdgeKeys es1 seen ++
        assignEdgeKeys es2 (((assignEdgeKeys es1 seen).map Prod.snd).reverse ++ seen) := by
  induction es1 with
  | nil => intro seen; rfl
  | cons e es1 ih =>
    intro seen
    simp only [List.cons_append, assignEdgeKeys, List.map_cons, List.reverse_cons,
      List.cons.injEq, true_and]
    simp only [List.append_eq]
    rw [ih (freshKey seen (baseKey e) :: seen)]
    congr 1
    simp

/-- If some edge of `es` has base key `b`, then `b` occurs among the
assigned keys or was already seen. -/
theorem base_mem_assigned (es : List RawEdge) :
    ∀ seen (e : RawEdge), e ∈ es →
      baseKey e ∈ (assignEdgeKeys es seen).map Prod.snd ∨ baseKey e ∈ seen := by
  induction es with
  | nil => intro seen e he; simp at he
  | cons e0 es ih =>
    intro seen e he
    simp only [List.mem_cons] at he
    rcases he with rfl | he
    · by_cases hb : baseKey e ∈ seen
      · exact Or.inr hb
      · left
        simp [assignEdgeKeys, freshKey_of_not_mem seen (baseKey e) hb]
    · rcases ih (freshKey seen (baseKey e0) :: seen) e he with h | h
      · left; simp [assignEdgeKeys]; right; exact (by simpa using h)
      · simp only [List.mem_cons] at h
        rcases h with h | h
        · left; simp [assignEdgeKeys]; left; exact h
        · exact Or.inr h

/-- The key assigned to an edge given the edges processed before it
(dereferencing the `assignEdgeKeys_append` decomposition at `seen = []`). -/
def assignedKey (es1 : List RawEdge) (e : RawEdge) : String :=
  freshKey (((assignEdgeKeys es1 []).map Prod.snd).reverse) (baseKey e)

theorem assignEdgeKeys_decomp (es1 : List RawEdge) (e : RawEdge) (es2 : List RawEdge) :
    assignEdgeKeys (es1 ++ e :: es2) [] =
      assignEdgeKeys es1 [] ++ (e, assignedKey es1 e) ::
        assignEdgeKeys es2
          (assignedKey es1 e :: (((assignEdgeKeys es1 []).map Prod.snd).reverse)) := by
  rw [assignEdgeKeys_append es1 (e :: es2) []]
  simp [assignEdgeKeys, assignedKey]

/-- Keys recorded for preceding edges all have dash count 2 or 3, so a base
key (dash count 2) is taken only by an edge with that very base key. -/
theorem assigned_base_not_mem (es1 : List RawEdge) (e : RawEdge)
    (hfirst : ∀ x ∈ es1, baseKey x ≠ baseKey e) :
    baseKey e ∉ (assignEdgeKeys es1 []).map Prod.snd := by
  intro hmem
  simp only [List.mem_map] at hmem
  obtain ⟨p, hp, hk⟩ := hmem
  have hx : p.1 ∈ es1 := by
    have := assignEdgeKeys_map_fst es1 []
    rw [← this]
    exact List.mem_map_of_mem Prod.fst hp
  rcases assignEdgeKeys_mem_shape es1 [] p hp with h | ⟨j, _, h⟩
  · exact hfirst p.1 hx (by rw [← h, hk])
  · have hc2 : dashCount (baseKey e) = 2 := dashCount_baseKey e
    have hc3 : dashCount (suffixKey (baseKey p.1) j) = 3 := by
      rw [dashCount_suffixKey, dashCount_baseKey]
    rw [← hk, h] at hc2
    omega

open Val

/-- Node attribute projection of `to_graphology_json`. -/
def kNodeAttrs (n : KNode) : List (String × Val) :=
  [("lat", vNum n.y), ("lng", vNum n.x),
   ("highway", tagsGetD n.tags "highway" (vStr "intersection")),
   ("name", tagsGetD n.tags "name" (vStr ""))]

/-- Edge attribute projection of `to_graphology_json`
(`float(attrs.get('length', 0))` becomes `e.length?.getD 0`). -/
def kEdgeAttrs (e : RawEdge) : List (String × Val) :=
  [("highway", tagsGetD e.tags "highway" (vStr "path")),
   ("length", vNum (e.length?.getD 0)),
   ("surface", tagsGetD e.tags "surface" (vStr "")),
   ("foot", tagsGetD e.tags "foot" (vStr "yes"))]

structure GEdge where
  key : String
  source : String
  target : String
  attributes : List (String × Val)
deriving DecidableEq, Repr, Inhabited

structure GraphologyData where
  attributes : List (String × Val)
  nodes : List (String × List (String × Val))
  edges : List GEdge
deriving DecidableEq, Repr, Inhabited

/-- `to_graphology_json` from `generate_kista_graphology.py`. -/
def to_graphology_json (G : KGraph) : GraphologyData :=
  { attributes := []
    nodes := G.nodes.map (fun n => (Nat.repr n.id, kNodeAttrs n))
    edges := (assignEdgeKeys G.edges []).map (fun p =>
      { key := p.2, source := Nat.repr p.1.u, target := Nat.repr p.1.v,
        attributes := kEdgeAttrs p.1 }) }

/-! ### Undirected-simple mode: `generate_walk_network.py` -/

/-- A raw node in undirected-simple mode: the script checks
`'y' in data and 'x' in data`, so the coordinate tags are optional here. -/
structure RawNode where
  id : Nat
  y? : Option ℚ
  x? : Option ℚ
  tags : List (String × Val)
deriving DecidableEq, Repr, Inhabited

structure RawGraph where
  nodes : List RawNode
  edges : List RawEdge
deriving DecidableEq, Repr, Inhabited

def sameUnorderedPair (a b : RawEdge) : Bool :=
  decide ((a.u = b.u ∧ a.v = b.v) ∨ (a.u = b.v ∧ a.v = b.u))

/-- One step of undirecting a keyed multigraph.  Models networkx
`MultiDiGraph.to_undirected()` followed by `MultiGraph.edges(data=True)`
iteration: a directed edge whose `(unordered endpoint pair, key)` was already
seen merges with the existing undirected edge (the first occurrence is kept);
otherwise the edge is kept as a new parallel edge, reported with the
orientation of the first edge seen between the same endpoints. -/
def addUndirectedEdge (acc : List RawEdge) (e : RawEdge) : List RawEdge :=
  if acc.any (fun a => sameUnorderedPair a e && (a.key == e.key)) then acc
  else
    match acc.find? (fun a => sameUnorderedPair a e) with
    | some a => acc ++ [{ e with u := a.u, v := a.v }]
    | none => acc ++ [e]

/-- `G.to_undirected()` as it is consumed by the script: the resulting list
of undirected (but still possibly parallel) edges in iteration order. -/
def to_undirected (es : List RawEdge) : List RawEdge := es.foldl addUndirectedEdge []

/-- One projected node of the `nodes` mapping. -/
structure PNode where
  id : String
  lat : ℚ
  lng : ℚ
  properties : List (String × Val)
deriving DecidableEq, Repr, Inhabited

structure Coord where
  lat : ℚ
  lng : ℚ
deriving DecidableEq, Repr, Inhabited

/-- One projected edge; `frm` models the Python dict field `"from"`. -/
structure PEdge where
  id : String
  frm : String
  to_ : String
  coordinates : List Coord
  properties : List (String × Val)
deriving DecidableEq, Repr, Inhabited

structure WalkableArea where
  id : String
  type : String
  coordinates : List Coord
  properties : List (String × Val)
deriving DecidableEq, Repr, Inhabited

structure AdjacencyEntry where
  to_ : String
  distance : Val
  edge_id : String
deriving DecidableEq, Repr, Inhabited

structure Bounds where
  north : ℚ
  south : ℚ
  east : ℚ
  west : ℚ
deriving DecidableEq, Repr, Inhabited

structure Metadata where
  area : String
  bounds : Bounds
  node_count : Nat
  edge_count : Nat
  generated_at : String
deriving DecidableEq, Repr, Inhabited

structure NetworkDocument where
  metadata : Metadata
  nodes : List (String × PNode)
  edges : List PEdge
  walkable_areas : List WalkableArea
  graph : List (String × List AdjacencyEntry)
deriving DecidableEq, Repr, Inhabited

/-- Node properties bag of `process_network_for_javascript`. -/
def walkNodeProps (tags : List (String × Val)) : List (String × Val) :=
  [("highway", tagsGetD tags "highway" (vStr "intersection")),
   ("name", tagsGetD tags "name" (vStr "")),
   ("intersection", tagsGetD tags "intersection" (vBool false))]

/-- A raw node passes the `'y' in data and 'x' in data` filter and is
projected; otherwise it is skipped. -/
def projectNode (n : RawNode) : Option PNode :=
  match n.y?, n.x? with
  | some y, some x =>
    some { id := Nat.repr n.id, lat := y, lng := x, properties := walkNodeProps n.tags }
  | _, _ => none

/-- The `nodes` dict: insertion-ordered, keyed by `str(node_id)`. -/
def walkNodes (ns : List RawNode) : List (String × PNode) :=
  ns.foldl
    (fun acc n =>
      match projectNode n with
      | some p => dictUpsert acc (Nat.repr n.id) p
      | none => acc)
    []

/-- Edge properties bag of `process_network_for_javascript`. -/
def walkEdgeProps (e : RawEdge) : List (String × Val) :=
  [("highway", tagsGetD e.tags "highway" (vStr "path")),
   ("name", tagsGetD e.tags "name" (vStr "")),
   ("length", vNum (e.length?.getD 0)),
   ("width", tagsGetD e.tags "width" vNull),
   ("surface", tagsGetD e.tags "surface" vNull),
   ("lit", tagsGetD e.tags "lit" vNull),
   ("foot", tagsGetD e.tags "foot" (vStr "yes"))]

/-- `f"edge_{u}_{v}"`. -/
def edgeId (e : RawEdge) : String := "edge_" ++ Nat.repr e.u ++ "_" ++ Nat.repr e.v

/-- An undirected edge is exported iff both endpoint ids are keys of the
node mapping (`if str(u) in nodes and str(v) in nodes`). -/
def projectEdge (nodes : List (String × PNode)) (e : RawEdge) : Option PEdge :=
  match nodes.lookup (Nat.repr e.u), nodes.lookup (Nat.repr e.v) with
  | some nu, some nv =>
    some { id := edgeId e, frm := Nat.repr e.u, to_ := Nat.repr e.v,
           coordinates := [⟨nu.lat, nu.lng⟩, ⟨nv.lat, nv.lng⟩],
           properties := walkEdgeProps e }
  | _, _ => none

def walkEdges (nodes : List (String × PNode)) (es : List RawEdge) : List PEdge :=
  es.filterMap (projectEdge nodes)

/-- `determine_area_type` from `generate_walk_network.py`. -/
def determine_area_type (properties : List (String × Val)) : String :=
  let highway := tagsGetD properties "highway" (vStr "")
  if highway = vStr "footway" then "path"
  else if highway = vStr "pedestrian" then "path"
  else if highway = vStr "living_street" then "road"
  else if highway = vStr "residential" ∧ truthy (tagsGetD properties "sidewalk" vNull) = true
    then "sidewalk"
  else if highway ∈ [vStr "primary", vStr "secondary", vStr "tertiary"] ∧
      truthy (tagsGetD properties "sidewalk" vNull) = true
    then "sidewalk"
  else if tagsGetD properties "leisure" vNull = vStr "park" then "plaza"
  else "path"

def walkAreas (edges : List PEdge) : List WalkableArea :=
  edges.map (fun e =>
    { id := e.id, type := determine_area_type e.properties,
      coordinates := e.coordinates, properties := e.properties })

/-- `edge['properties']['length']`; by construction the key is present. -/
def edgeDistance (e : PEdge) : Val := tagsGetD e.properties "length" vNull

/-- `graph[k].append(a)`; by construction `k` is always a key of `graph`. -/
def adjAppend (g : List (String × List AdjacencyEntry)) (k : String) (a : AdjacencyEntry) :
    List (String × List AdjacencyEntry) :=
  g.map (fun p => if p.1 = k then (p.1, p.2 ++ [a]) else p)

/-- The pathfinding adjacency mapping: every node id starts with an empty
list; each edge appends one entry under each endpoint. -/
def buildWalkGraph (nodes : List (String × PNode)) (edges : List PEdge) :
    List (String × List AdjacencyEntry) :=
  edges.foldl
    (fun g e =>
      adjAppend (adjAppend g e.frm ⟨e.to_, edgeDistance e, e.id⟩)
        e.to_ ⟨e.frm, edgeDistance e, e.id⟩)
    (nodes.map (fun p => (p.1, ([] : List AdjacencyEntry))))

def kistaBounds : Bounds :=
  { north := 59415/1000, south := 59390/1000, east := 17960/1000, west := 17920/1000 }

/-- `process_network_for_javascript` from `generate_walk_network.py`. -/
def process_network_for_javascript (G : RawGraph) : NetworkDocument :=
  let und := to_undirected G.edges
  let nodes := walkNodes G.nodes
  let edges := walkEdges nodes und
  { metadata :=
      { area := "Kista, Stockholm", bounds := kistaBounds,
        node_count := nodes.length, edge_count := edges.length,
        generated_at := "2024-01-01T00:00:00Z" }
    nodes := nodes
    edges := edges
    walkable_areas := walkAreas edges
    graph := buildWalkGraph nodes edges }

/-! ### JSON serialization (`json.dump`) and its inverse

`export_network` serializes the document with `json.dump`.  JSON values are
the inductive `Json`; the encoders below mirror the exact dict shapes the
script passes to `json.dump`.  The decoders reconstruct the document from a
`Json` value by field lookup (insensitive to object field order), modelling
the parse step of the round-trip property; the repository contains no parser,
so the decoders are modelled from the spec's round-trip contract. -/

inductive Json where
  | jNull : Json
  | jBool : Bool → Json
  | jNum : ℚ → Json
  | jStr : String → Json
  | jArr : List Json → Json
  | jObj : List (String × Json) → Json

def valToJson : Val → Json
  | vNull => .jNull
  | vBool b => .jBool b
  | vNum q => .jNum q
  | vStr s => .jStr s

def propsToJson (ps : List (String × Val)) : List (String × Json) :=
  ps.map (fun p => (p.1, valToJson p.2))

def coordToJson (c : Coord) : Json := .jObj [("lat", .jNum c.lat), ("lng", .jNum c.lng)]

def pnodeToJson (n : PNode) : Json :=
  .jObj [("id", .jStr n.id), ("lat", .jNum n.lat), ("lng", .jNum n.lng),
         ("properties", .jObj (propsToJson n.properties))]

def pedgeToJson (e : PEdge) : Json :=
  .jObj [("id", .jStr e.id), ("from", .jStr e.frm), ("to", .jStr e.to_),
         ("coordinates", .jArr (e.coordinates.map coordToJson)),
         ("properties", .jObj (propsToJson e.properties))]

def areaToJson (w : WalkableArea) : Json :=
  .jObj [("id", .jStr w.id), ("type", .jStr w.type),
         ("coordinates", .jArr (w.coordinates.map coordToJson)),
         ("properties", .jObj (propsToJson w.properties))]

def adjEntryToJson (a : AdjacencyEntry) : Json :=
  .jObj [("to", .jStr a.to_), ("distance", valToJson a.distance),
         ("edge_id", .jStr a.edge_id)]

def adjListToJson (g : List (String × List AdjacencyEntry)) : Json :=
  .jObj (g.map (fun p => (p.1, Json.jArr (p.2.map adjEntryToJson))))

def boundsToJson (b : Bounds) : Json :=
  .jObj [("north", .jNum b.north), ("south", .jNum b.south),
         ("east", .jNum b.east), ("west", .jNum b.west)]

def metadataToJson (m : Metadata) : Json :=
  .jObj [("area", .jStr m.area), ("bounds", boundsToJson m.bounds),
         ("node_count", .jNum m.node_count), ("edge_count", .jNum m.edge_count),
         ("generated_at", .jStr m.generated_at)]

/-- The document given to `json.dump` for `kista_walk_network.json`. -/
def docToJson (d : NetworkDocument) : Json :=
  .jObj [("metadata", metadataToJson d.metadata),
         ("nodes", .jObj (d.nodes.map (fun p => (p.1, pnodeToJson p.2)))),
         ("edges", .jArr (d.edges.map pedgeToJson)),
         ("walkable_areas", .jArr (d.walkable_areas.map areaToJson)),
         ("graph", adjListToJson d.graph)]

/-! Decoders.  Modelled from the spec: the repository's consumers parse the
exported JSON back; parsing is field-lookup based, so object field order and
whitespace are immaterial. -/

def jField (j : Json) (k : String) : Option Json :=
  match j with
  | .jObj fs => fs.lookup k
  | _ => none

def jAsStr : Json → Option String
  | .jStr s => some s
  | _ => none

def jAsNum : Json → Option ℚ
  | .jNum q => some q
  | _ => none

def jAsNat (j : Json) : Option Nat :=
  match j with
  | .jNum q => if q.den = 1 ∧ 0 ≤ q.num then some q.num.toNat else none
  | _ => none

def jAsArr : Json → Option (List Json)
  | .jArr xs => some xs
  | _ => none

def jAsObj : Json → Option (List (String × Json))
  | .jObj fs => some fs
  | _ => none

def valOfJson : Json → Option Val
  | .jNull => some vNull
  | .jBool b => some (vBool b)
  | .jNum q => some (vNum q)
  | .jStr s => some (vStr s)
  | _ => none

def decodeList {α : Type} (g : Json → Option α) : List Json → Option (List α)
  | [] => some []
  | j :: js => do
    let a ← g j
    let as ← decodeList g js
    pure (a :: as)

def decodePairs {α : Type} (g : Json → Option α) :
    List (String × Json) → Option (List (String × α))
  | [] => some []
  | p :: ps => do
    let a ← g p.2
    let as ← decodePairs g ps
    pure ((p.1, a) :: as)

def propsOfJson (j : Json) : Option (List (String × Val)) := do
  decodePairs valOfJson (← jAsObj j)

def coordOfJson (j : Json) : Option Coord := do
  let la ← jAsNum (← jField j "lat")
  let ln ← jAsNum (← jField j "lng")
  pure ⟨la, ln⟩

def pnodeOfJson (j : Json) : Option PNode := do
  let i ← jAsStr (← jField j "id")
  let la ← jAsNum (← jField j "lat")
  let ln ← jAsNum (← jField j "lng")
  let ps ← propsOfJson (← jField j "properties")
  pure ⟨i, la, ln, ps⟩

def pedgeOfJson (j : Json) : Option PEdge := do
  let i ← jAsStr (← jField j "id")
  let f ← jAsStr (← jField j "from")
  let t ← jAsStr (← jField j "to")
  let cs ← decodeList coordOfJson (← jAsArr (← jField j "coordinates"))
  let ps ← propsOfJson (← jField j "properties")
  pure ⟨i, f, t, cs, ps⟩

def areaOfJson (j : Json) : Option WalkableArea := do
  let i ← jAsStr (← jField j "id")
  let t ← jAsStr (← jField j "type")
  let cs ← decodeList coordOfJson (← jAsArr (← jField j "coordinates"))
  let ps ← propsOfJson (← jField j "properties")
  pure ⟨i, t, cs, ps⟩

def adjEntryOfJson (j : Json) : Option AdjacencyEntry := do
  let t ← jAsStr (← jField j "to")
  let di ← valOfJson (← jField j "distance")
  let ei ← jAsStr (← jField j "edge_id")
  pure ⟨t, di, ei⟩

def adjListOfJson (j : Json) : Option (List (String × List AdjacencyEntry)) := do
  decodePairs (fun x => do decodeList adjEntryOfJson (← jAsArr x)) (← jAsObj j)

def boundsOfJson (j : Json) : Option Bounds := do
  let n ← jAsNum (← jField j "north")
  let s ← jAsNum (← jField j "south")
  let e ← jAsNum (← jField j "east")
  let w ← jAsNum (← jField j "west")
  pure ⟨n, s, e, w⟩

def metadataOfJson (j : Json) : Option Metadata := do
  let a ← jAsStr (← jField j "area")
  let b ← boundsOfJson (← jField j "bounds")
  let nc ← jAsNat (← jField j "node_count")
  let ec ← jAsNat (← jField j "edge_count")
  let g ← jAsStr (← jField j "generated_at")
  pure ⟨a, b, nc, ec, g⟩

def docOfJson (j : Json) : Option NetworkDocument := do
  let m ← metadataOfJson (← jField j "metadata")
  let ns ← decodePairs pnodeOfJson (← jAsObj (← jField j "nodes"))
  let es ← decodeList pedgeOfJson (← jAsArr (← jField j "edges"))
  let ws ← decodeList areaOfJson (← jAsArr (← jField j "walkable_areas"))
  let g ← adjListOfJson (← jField j "graph")
  pure ⟨m, ns, es, ws, g⟩

/-! ### The exporter (`export_network`)

File writes are modelled by an outcome oracle `ok : String → Bool`: a file
whose write fails raises, the exception propagates, and nothing after it is
written.  The result is the list of (file name, serialized content) pairs
actually written, plus a success flag. -/

def exportFileNames : List String :=
  ["kista_walk_network.json", "walkable_areas.json", "walk_graph.json"]

/-- The three artifacts, in write order, all derived from the one in-memory
document. -/
def exportContents (d : NetworkDocument) : List (String × Json) :=
  [("kista_walk_network.json", docToJson d),
   ("walkable_areas.json", .jArr (d.walkable_areas.map areaToJson)),
   ("walk_graph.json", adjListToJson d.graph)]

def writeSeq (ok : String → Bool) : List (String × Json) → List (String × Json) × Bool
  | [] => ([], true)
  | f :: fs =>
    if ok f.1 then
      let r := writeSeq ok fs
      (f :: r.1, r.2)
    else ([], false)

/-- `export_network` from `generate_walk_network.py`, under write oracle
`ok`. -/
def export_network (d : NetworkDocument) (ok : String → Bool) :
    List (String × Json) × Bool :=
  writeSeq ok (exportContents d)

/-! ### Round-trip lemmas for the JSON codec -/

theorem valOfJson_valToJson (v : Val) : valOfJson (valToJson v) = some v := by
  cases v <;> rfl

theorem decodeList_map {α : Type} (f : α → Json) (g : Json → Option α)
    (h : ∀ a, g (f a) = some a) : ∀ xs : List α, decodeList g (xs.map f) = some xs := by
  intro xs
  induction xs with
  | nil => rfl
  | cons a xs ih => simp [decodeList, h, ih]

theorem decodePairs_map {α : Type} (f : α → Json) (g : Json → Option α)
    (h : ∀ a, g (f a) = some a) :
    ∀ ps : List (String × α), decodePairs g (ps.map (fun p => (p.1, f p.2))) = some ps := by
  intro ps
  induction ps with
  | nil => rfl
  | cons p ps ih => simp [decodePairs, h, ih]

theorem propsOfJson_roundtrip (ps : List (String × Val)) :
    propsOfJson (.jObj (propsToJson ps)) = some ps := by
  simp [propsOfJson, jAsObj, propsToJson, decodePairs_map valToJson valOfJson valOfJson_valToJson]

theorem coordOfJson_roundtrip (c : Coord) : coordOfJson (coordToJson c) = some c := rfl

theorem pnodeOfJson_roundtrip (n : PNode) : pnodeOfJson (pnodeToJson n) = some n := by
  show (propsOfJson (.jObj (propsToJson n.properties))).bind
      (fun ps => some { id := n.id, lat := n.lat, lng := n.lng, properties := ps }) = some n
  rw [propsOfJson_roundtrip]
  rfl

theorem pedgeOfJson_roundtrip (e : PEdge) : pedgeOfJson (pedgeToJson e) = some e := by
  show ((decodeList coordOfJson (e.coordinates.map coordToJson)).bind fun cs =>
      (propsOfJson (.jObj (propsToJson e.properties))).bind fun ps =>
        some { id := e.id, frm := e.frm, to_ := e.to_, coordinates := cs,
               properties := ps }) = some e
  simp only [decodeList_map coordToJson coordOfJson coordOfJson_roundtrip,
    propsOfJson_roundtrip, Option.some_bind]

theorem areaOfJson_roundtrip (w : WalkableArea) : areaOfJson (areaToJson w) = some w := by
  show ((decodeList coordOfJson (w.coordinates.map coordToJson)).bind fun cs =>
      (propsOfJson (.jObj (propsToJson w.properties))).bind fun ps =>
        some { id := w.id, type := w.type, coordinates := cs,
               properties := ps }) = some w
  simp only [decodeList_map coordToJson coordOfJson coordOfJson_roundtrip,
    propsOfJson_roundtrip, Option.some_bind]

theorem adjEntryOfJson_roundtrip (a : AdjacencyEntry) :
    adjEntryOfJson (adjEntryToJson a) = some a := by
  show (valOfJson (valToJson a.distance)).bind
      (fun di => some { to_ := a.to_, distance := di, edge_id := a.edge_id }) = some a
  rw [valOfJson_valToJson]
  rfl

theorem adjListOfJson_roundtrip (g : List (String × List AdjacencyEntry)) :
    adjListOfJson (adjListToJson g) = some g := by
  simp only [adjListOfJson, adjListToJson, jAsObj]
  have h : ∀ l : List AdjacencyEntry,
      (fun x => (jAsArr x).bind (decodeList adjEntryOfJson)) (Json.jArr (l.map adjEntryToJson))
        = some l := by
    intro l
    simp [jAsArr, decodeList_map adjEntryToJson adjEntryOfJson adjEntryOfJson_roundtrip]
  simpa using decodePairs_map (fun l => Json.jArr (l.map adjEntryToJson))
    (fun x => (jAsArr x).bind (decodeList adjEntryOfJson)) h g

theorem jAsNat_natCast (n : Nat) : jAsNat (.jNum (n : ℚ)) = some n := by
  simp [jAsNat, Rat.den_natCast, Rat.num_natCast]

theorem metadataOfJson_roundtrip (m : Metadata) :
    metadataOfJson (metadataToJson m) = some m := by
  show ((jAsNat (.jNum (m.node_count : ℚ))).bind fun nc =>
      (jAsNat (.jNum (m.edge_count : ℚ))).bind fun ec =>
        some { area := m.area, bounds := m.bounds, node_count := nc, edge_count := ec,
               generated_at := m.generated_at }) = some m
  simp only [jAsNat_natCast, Option.some_bind]

/-- Serializing a `NetworkDocument` and parsing it back is the identity. -/
theorem docOfJson_roundtrip (d : NetworkDocument) : docOfJson (docToJson d) = some d := by
  show ((metadataOfJson (metadataToJson d.metadata)).bind fun m =>
      (decodePairs pnodeOfJson (d.nodes.map fun p => (p.1, pnodeToJson p.2))).bind fun ns =>
      (decodeList pedgeOfJson (d.edges.map pedgeToJson)).bind fun es =>
      (decodeList areaOfJson (d.walkable_areas.map areaToJson)).bind fun ws =>
      (adjListOfJson (adjListToJson d.graph)).bind fun g =>
      some { metadata := m, nodes := ns, edges := es, walkable_areas := ws,
             graph := g }) = some d
  simp only [metadataOfJson_roundtrip,
    decodePairs_map pnodeToJson pnodeOfJson pnodeOfJson_roundtrip,
    decodeList_map pedgeToJson pedgeOfJson pedgeOfJson_roundtrip,
    decodeList_map areaToJson areaOfJson areaOfJson_roundtrip,
    adjListOfJson_roundtrip, Option.some_bind]

/-! ### Structural lemmas about the undirected-simple pipeline -/

theorem lookup_isSome_iff {α : Type} (l : List (String × α)) (k : String) :
    (l.lookup k).isSome = true ↔ k ∈ l.map Prod.fst := by
  induction l with
  | nil => simp [List.lookup]
  | cons p ps ih =>
    by_cases h : k = p.1
    · subst h; simp [List.lookup]
    · have hbeq : (k == p.1) = false := beq_false_of_ne h
      simp [List.lookup, hbeq, ih, h]

/-- Characterization of a successfully projected edge. -/
theorem projectEdge_some (nodes : List (String × PNode)) (e : RawEdge) (pe : PEdge)
    (h : projectEdge nodes e = some pe) :
    pe.frm = Nat.repr e.u ∧ pe.to_ = Nat.repr e.v ∧ pe.id = edgeId e ∧
      pe.properties = walkEdgeProps e ∧
      (nodes.lookup (Nat.repr e.u)).isSome = true ∧
      (nodes.lookup (Nat.repr e.v)).isSome = true := by
  unfold projectEdge at h
  cases hu : nodes.lookup (Nat.repr e.u) with
  | none => rw [hu] at h; simp at h
  | some nu =>
    cases hv : nodes.lookup (Nat.repr e.v) with
    | none => rw [hu, hv] at h; simp at h
    | some nv =>
      rw [hu, hv] at h
      simp at h
      subst h
      simp [hu, hv]

theorem walkEdges_mem (nodes : List (String × PNode)) (es : List RawEdge) (pe : PEdge)
    (h : pe ∈ walkEdges nodes es) : ∃ e ∈ es, projectEdge nodes e = some pe := by
  unfold walkEdges at h
  exact List.mem_filterMap.mp h

/-- Keys of the python-dict upsert. -/
theorem dictUpsert_mem_keys {α : Type} (l : List (String × α)) (k : String) (v : α) :
    ∀ m, m ∈ (dictUpsert l k v).map Prod.fst → m = k ∨ m ∈ l.map Prod.fst := by
  induction l with
  | nil => intro m hm; simp [dictUpsert] at hm; exact Or.inl hm
  | cons p ps ih =>
    intro m hm
    by_cases h : p.1 = k
    · rw [show dictUpsert (p :: ps) k v = (k, v) :: ps from by simp [dictUpsert, h]] at hm
      simp only [List.map_cons, List.mem_cons] at hm
      rcases hm with rfl | hm
      · exact Or.inl rfl
      · exact Or.inr (by simp [hm])
    · rw [show dictUpsert (p :: ps) k v = p :: dictUpsert ps k v from
          by simp [dictUpsert, h]] at hm
      simp only [List.map_cons, List.mem_cons] at hm
      rcases hm with rfl | hm
      · exact Or.inr (by simp)
      · rcases ih m hm with h1 | h1
        · exact Or.inl h1
        · exact Or.inr (by simp [h1])

theorem dictUpsert_keys_nodup {α : Type} (l : List (String × α)) (k : String) (v : α)
    (h : (l.map Prod.fst).Nodup) : ((dictUpsert l k v).map Prod.fst).Nodup := by
  induction l with
  | nil => simp [dictUpsert]
  | cons p ps ih =>
    simp only [List.map_cons, List.nodup_cons] at h
    by_cases hk : p.1 = k
    · rw [show dictUpsert (p :: ps) k v = (k, v) :: ps from by simp [dictUpsert, hk]]
      simp only [List.map_cons, List.nodup_cons]
      exact ⟨hk ▸ h.1, h.2⟩
    · rw [show dictUpsert (p :: ps) k v = p :: dictUpsert ps k v from
          by simp [dictUpsert, hk]]
      simp only [List.map_cons, List.nodup_cons]
      refine ⟨fun hmem => ?_, ih h.2⟩
      rcases dictUpsert_mem_keys ps k v p.1 hmem with h1 | h1
      · exact hk h1
      · exact h.1 h1

/-- Every key of the node mapping originates from a raw node that passed the
coordinate filter. -/
theorem walkNodes_keys_origin (ns : List RawNode) :
    ∀ acc k, k ∈ ((ns.foldl
        (fun acc n =>
          match projectNode n with
          | some p => dictUpsert acc (Nat.repr n.id) p
          | none => acc) acc).map Prod.fst) →
      k ∈ acc.map Prod.fst ∨
        ∃ n ∈ ns, k = Nat.repr n.id ∧ n.y?.isSome = true ∧ n.x?.isSome = true := by
  induction ns with
  | nil => intro acc k hk; exact Or.inl hk
  | cons n ns ih =>
    intro acc k hk
    simp only [List.foldl_cons] at hk
    cases hy : n.y? with
    | none =>
      have hpn : projectNode n = none := by unfold projectNode; rw [hy]
      rw [hpn] at hk
      rcases ih acc k hk with h | ⟨n', hn', hrest⟩
      · exact Or.inl h
      · exact Or.inr ⟨n', by simp [hn'], hrest⟩
    | some y =>
      cases hx : n.x? with
      | none =>
        have hpn : projectNode n = none := by unfold projectNode; rw [hy, hx]
        rw [hpn] at hk
        rcases ih acc k hk with h | ⟨n', hn', hrest⟩
        · exact Or.inl h
        · exact Or.inr ⟨n', by simp [hn'], hrest⟩
      | some x =>
        have hpn : projectNode n =
            some { id := Nat.repr n.id, lat := y, lng := x,
                   properties := walkNodeProps n.tags } := by
          unfold projectNode; rw [hy, hx]
        rw [hpn] at hk
        rcases ih _ k hk with h | ⟨n', hn', hrest⟩
        · rcases dictUpsert_mem_keys acc (Nat.repr n.id) _ k h with h1 | h1
          · exact Or.inr ⟨n, by simp, h1, by simp [hy], by simp [hx]⟩
          · exact Or.inl h1
        · exact Or.inr ⟨n', by simp [hn'], hrest⟩

theorem walkNodes_keys_nodup (ns : List RawNode) : ((walkNodes ns).map Prod.fst).Nodup := by
  unfold walkNodes
  suffices h : ∀ acc : List (String × PNode), (acc.map Prod.fst).Nodup →
      ((ns.foldl
        (fun acc n =>
          match projectNode n with
          | some p => dictUpsert acc (Nat.repr n.id) p
          | none => acc) acc).map Prod.fst).Nodup by
    exact h [] (by simp)
  induction ns with
  | nil => intro acc hacc; exact hacc
  | cons n ns ih =>
    intro acc hacc
    simp only [List.foldl_cons]
    cases hpn : projectNode n with
    | none => exact ih acc hacc
    | some p => exact ih _ (dictUpsert_keys_nodup acc (Nat.repr n.id) p hacc)

/-- `graph[k]` as observed downstream (empty when `k` is absent). -/
def lookupAdj (g : List (String × List AdjacencyEntry)) (k : String) : List AdjacencyEntry :=
  (g.lookup k).getD []

/-- Total number of `AdjacencyEntry` records in the mapping. -/
def totalAdjEntries (g : List (String × List AdjacencyEntry)) : Nat :=
  (g.map (fun p => p.2.length)).sum

theorem adjAppend_map_fst (g : List (String × List AdjacencyEntry)) (k : String)
    (a : AdjacencyEntry) : (adjAppend g k a).map Prod.fst = g.map Prod.fst := by
  unfold adjAppend
  rw [List.map_map]
  apply List.map_congr_left
  intro p _
  by_cases h : p.1 = k <;> simp [h]

theorem lookup_cons_self {α : Type} (k : String) (v : α) (rest : List (String × α)) :
    List.lookup k ((k, v) :: rest) = some v := by
  simp [List.lookup]

theorem lookup_cons_ne {α : Type} (k k' : String) (v : α) (rest : List (String × α))
    (h : (k == k') = false) : List.lookup k ((k', v) :: rest) = List.lookup k rest := by
  simp [List.lookup, h]

theorem adjAppend_lookup_self (g : List (String × List AdjacencyEntry)) (k : String)
    (a : AdjacencyEntry) :
    (adjAppend g k a).lookup k = (g.lookup k).map (fun l => l ++ [a]) := by
  induction g with
  | nil => rfl
  | cons p ps ih =>
    obtain ⟨k1, l1⟩ := p
    by_cases h : k1 = k
    · subst h
      rw [show adjAppend ((k1, l1) :: ps) k1 a = (k1, l1 ++ [a]) :: adjAppend ps k1 a from
          by simp [adjAppend]]
      rw [lookup_cons_self, lookup_cons_self]
      rfl
    · have hbeq : (k == k1) = false := beq_false_of_ne (fun hk => h hk.symm)
      rw [show adjAppend ((k1, l1) :: ps) k a = (k1, l1) :: adjAppend ps k a from
          by simp [adjAppend, h]]
      rw [lookup_cons_ne _ _ _ _ hbeq, lookup_cons_ne _ _ _ _ hbeq]
      exact ih

theorem adjAppend_lookup_ne (g : List (String × List AdjacencyEntry)) (k k' : String)
    (a : AdjacencyEntry) (h : k' ≠ k) :
    (adjAppend g k a).lookup k' = g.lookup k' := by
  induction g with
  | nil => rfl
  | cons p ps ih =>
    obtain ⟨k1, l1⟩ := p
    by_cases hp : k1 = k'
    · subst hp
      have hne : ¬k1 = k := fun hk => h (hk ▸ rfl)
      rw [show adjAppend ((k1, l1) :: ps) k a = (k1, l1) :: adjAppend ps k a from
          by simp [adjAppend, hne]]
      rw [lookup_cons_self, lookup_cons_self]
    · have hbeq : (k' == k1) = false := beq_false_of_ne (fun hk => hp hk.symm)
      by_cases hpk : k1 = k
      · rw [show adjAppend ((k1, l1) :: ps) k a = (k1, l1 ++ [a]) :: adjAppend ps k a from
            by simp [adjAppend, hpk]]
        rw [lookup_cons_ne _ _ _ _ hbeq, lookup_cons_ne _ _ _ _ hbeq]
        exact ih
      · rw [show adjAppend ((k1, l1) :: ps) k a = (k1, l1) :: adjAppend ps k a from
            by simp [adjAppend, hpk]]
        rw [lookup_cons_ne _ _ _ _ hbeq, lookup_cons_ne _ _ _ _ hbeq]
        exact ih

theorem adjAppend_mem_preserved (g : List (String × List AdjacencyEntry)) (k k' : String)
    (a x : AdjacencyEntry) (h : x ∈ lookupAdj g k') : x ∈ lookupAdj (adjAppend g k a) k' := by
  unfold lookupAdj at h ⊢
  by_cases hk : k' = k
  · subst hk
    rw [adjAppend_lookup_self]
    cases hl : g.lookup k' with
    | none => rw [hl] at h; simp at h
    | some l => rw [hl] at h; simp at h ⊢; exact Or.inl h
  · rw [adjAppend_lookup_ne g k k' a hk]
    exact h

theorem adjAppend_self_mem (g : List (String × List AdjacencyEntry)) (k : String)
    (a : AdjacencyEntry) (h : k ∈ g.map Prod.fst) : a ∈ lookupAdj (adjAppend g k a) k := by
  unfold lookupAdj
  rw [adjAppend_lookup_self]
  cases hl : g.lookup k with
  | none =>
    exfalso
    have := (lookup_isSome_iff g k).mpr h
    rw [hl] at this
    simp at this
  | some l => simp

theorem adjAppend_of_not_mem (g : List (String × List AdjacencyEntry)) (k : String)
    (a : AdjacencyEntry) (h : k ∉ g.map Prod.fst) : adjAppend g k a = g := by
  unfold adjAppend
  conv_rhs => rw [← List.map_id g]
  apply List.map_congr_left
  intro p hp
  have hne : p.1 ≠ k := fun hk => h (hk ▸ List.mem_map_of_mem Prod.fst hp)
  simp [hne]

theorem adjAppend_totalAdjEntries (g : List (String × List AdjacencyEntry)) (k : String)
    (a : AdjacencyEntry) (hnd : (g.map Prod.fst).Nodup) (h : k ∈ g.map Prod.fst) :
    totalAdjEntries (adjAppend g k a) = totalAdjEntries g + 1 := by
  induction g with
  | nil => simp at h
  | cons p ps ih =>
    obtain ⟨k1, l1⟩ := p
    simp only [List.map_cons, List.nodup_cons] at hnd
    simp only [List.map_cons, List.mem_cons] at h
    by_cases hp : k1 = k
    · subst hp
      rw [show adjAppend ((k1, l1) :: ps) k1 a = (k1, l1 ++ [a]) :: adjAppend ps k1 a from
          by simp [adjAppend]]
      rw [adjAppend_of_not_mem ps k1 a hnd.1]
      simp [totalAdjEntries]
      omega
    · rcases h with h | h
      · exact absurd h.symm hp
      · rw [show adjAppend ((k1, l1) :: ps) k a = (k1, l1) :: adjAppend ps k a from
            by simp [adjAppend, hp]]
        have := ih hnd.2 h
        simp only [totalAdjEntries, List.map_cons, List.sum_cons] at this ⊢
        omega

/-- One edge's contribution to the adjacency mapping. -/
def adjStep (g : List (String × List AdjacencyEntry)) (e : PEdge) :
    List (String × List AdjacencyEntry) :=
  adjAppend (adjAppend g e.frm ⟨e.to_, edgeDistance e, e.id⟩)
    e.to_ ⟨e.frm, edgeDistance e, e.id⟩

theorem buildWalkGraph_eq_foldl (nodes : List (String × PNode)) (edges : List PEdge) :
    buildWalkGraph nodes edges =
      edges.foldl adjStep (nodes.map (fun p => (p.1, ([] : List AdjacencyEntry)))) := rfl

theorem adjStep_map_fst (g : List (String × List AdjacencyEntry)) (e : PEdge) :
    (adjStep g e).map Prod.fst = g.map Prod.fst := by
  unfold adjStep
  rw [adjAppend_map_fst, adjAppend_map_fst]

theorem foldl_adjStep_map_fst (edges : List PEdge) :
    ∀ g, (edges.foldl adjStep g).map Prod.fst = g.map Prod.fst := by
  induction edges with
  | nil => intro g; rfl
  | cons e es ih => intro g; rw [List.foldl_cons, ih, adjStep_map_fst]

theorem adjStep_mem_preserved (g : List (String × List AdjacencyEntry)) (e : PEdge)
    (k : String) (x : AdjacencyEntry) (h : x ∈ lookupAdj g k) : x ∈ lookupAdj (adjStep g e) k :=
  adjAppend_mem_preserved _ _ _ _ _ (adjAppend_mem_preserved _ _ _ _ _ h)

theorem foldl_adjStep_mem_preserved (edges : List PEdge) :
    ∀ g k x, x ∈ lookupAdj g k → x ∈ lookupAdj (edges.foldl adjStep g) k := by
  induction edges with
  | nil => intro g k x h; exact h
  | cons e es ih =>
    intro g k x h
    rw [List.foldl_cons]
    exact ih _ k x (adjStep_mem_preserved g e k x h)

theorem adjStep_adds_both (g : List (String × List AdjacencyEntry)) (e : PEdge)
    (hf : e.frm ∈ g.map Prod.fst) (ht : e.to_ ∈ g.map Prod.fst) :
    (⟨e.to_, edgeDistance e, e.id⟩ : AdjacencyEntry) ∈ lookupAdj (adjStep g e) e.frm ∧
      (⟨e.frm, edgeDistance e, e.id⟩ : AdjacencyEntry) ∈ lookupAdj (adjStep g e) e.to_ := by
  constructor
  · exact adjAppend_mem_preserved _ _ _ _ _ (adjAppend_self_mem g e.frm _ hf)
  · apply adjAppend_self_mem
    rw [adjAppend_map_fst]
    exact ht

theorem adjStep_totalAdjEntries (g : List (String × List AdjacencyEntry)) (e : PEdge)
    (hnd : (g.map Prod.fst).Nodup) (hf : e.frm ∈ g.map Prod.fst)
    (ht : e.to_ ∈ g.map Prod.fst) :
    totalAdjEntries (adjStep g e) = totalAdjEntries g + 2 := by
  unfold adjStep
  rw [adjAppend_totalAdjEntries _ _ _ (by rwa [adjAppend_map_fst])
      (by rwa [adjAppend_map_fst]),
    adjAppend_totalAdjEntries _ _ _ hnd hf]

theorem foldl_adjStep_total (edges : List PEdge) :
    ∀ g, (g.map Prod.fst).Nodup →
      (∀ e ∈ edges, e.frm ∈ g.map Prod.fst ∧ e.to_ ∈ g.map Prod.fst) →
      totalAdjEntries (edges.foldl adjStep g) = totalAdjEntries g + 2 * edges.length := by
  induction edges with
  | nil => intro g _ _; simp
  | cons e es ih =>
    intro g hnd hmem
    rw [List.foldl_cons]
    have he := hmem e (by simp)
    have hrec := ih (adjStep g e)
      (by rw [adjStep_map_fst]; exact hnd)
      (fun e' he' => by rw [adjStep_map_fst]; exact hmem e' (by simp [he']))
    rw [hrec, adjStep_totalAdjEntries g e hnd he.1 he.2]
    simp
    omega

theorem foldl_adjStep_mem_adds (edges : List PEdge) :
    ∀ g, (∀ e ∈ edges, e.frm ∈ g.map Prod.fst ∧ e.to_ ∈ g.map Prod.fst) →
      ∀ e ∈ edges,
        (⟨e.to_, edgeDistance e, e.id⟩ : AdjacencyEntry) ∈
            lookupAdj (edges.foldl adjStep g) e.frm ∧
          (⟨e.frm, edgeDistance e, e.id⟩ : AdjacencyEntry) ∈
            lookupAdj (edges.foldl adjStep g) e.to_ := by
  induction edges with
  | nil => intro g _ e he; simp at he
  | cons e0 es ih =>
    intro g hmem e he
    rw [List.foldl_cons]
    simp only [List.mem_cons] at he
    rcases he with rfl | he
    · have h0 := hmem e (by simp)
      have hadd := adjStep_adds_both g e h0.1 h0.2
      exact ⟨foldl_adjStep_mem_preserved es _ _ _ hadd.1,
        foldl_adjStep_mem_preserved es _ _ _ hadd.2⟩
    · exact ih (adjStep g e0)
        (fun e' he' => by rw [adjStep_map_fst]; exact hmem e' (by simp [he'])) e he

/-! ### Injectivity of the `edge_u_v` identifier scheme -/

theorem underscore_join_inj :
    ∀ (a : List Char) (b : List Char) (a' : List Char) (b' : List Char),
      '_' ∉ a → '_' ∉ a' → a ++ '_' :: b = a' ++ '_' :: b' → a = a' ∧ b = b' := by
  intro a
  induction a with
  | nil =>
    intro b a' b' _ ha' h
    cases a' with
    | nil => simp at h; exact ⟨rfl, h⟩
    | cons c a' =>
      simp at h
      have hc : '_' ∈ c :: a' := by rw [h.1]; exact List.mem_cons_self _ _
      exact absurd hc ha'
  | cons c a ih =>
    intro b a' b' ha ha' h
    cases a' with
    | nil =>
      simp at h
      have hc : '_' ∈ c :: a := by rw [h.1]; exact List.mem_cons_self _ _
      exact absurd hc ha
    | cons c' a' =>
      simp only [List.cons_append, List.cons.injEq] at h
      obtain ⟨rfl, h⟩ := h
      have := ih b a' b' (fun hm => ha (List.mem_cons_of_mem c hm))
        (fun hm => ha' (List.mem_cons_of_mem c hm)) h
      exact ⟨by rw [this.1], this.2⟩

theorem edgeId_inj (e e' : RawEdge) (h : edgeId e = edgeId e') :
    e.u = e'.u ∧ e.v = e'.v := by
  unfold edgeId at h
  have hd := congrArg String.data h
  simp only [String.data_append, List.append_assoc] at hd
  have hd2 := List.append_cancel_left hd
  simp only [List.singleton_append] at hd2
  have := underscore_join_inj _ _ _ _ (repr_no_underscore e.u) (repr_no_underscore e'.u) hd2
  exact ⟨repr_inj _ _ (string_ext this.1), repr_inj _ _ (string_ext this.2)⟩

/-! ### Observations about the classifier on pipeline-produced bags -/

/-- The projected edge bag holds exactly the seven fixed keys, so neither
`sidewalk` nor `leisure` is ever present. -/
theorem walkEdgeProps_keys (e : RawEdge) :
    (walkEdgeProps e).map Prod.fst =
      ["highway", "name", "length", "width", "surface", "lit", "foot"] := rfl

theorem walkEdgeProps_no_sidewalk (e : RawEdge) :
    tagsGetD (walkEdgeProps e) "sidewalk" vNull = vNull := rfl

theorem walkEdgeProps_no_leisure (e : RawEdge) :
    tagsGetD (walkEdgeProps e) "leisure" vNull = vNull := rfl

/-- On a pipeline-produced bag the classifier can only answer `path` or
`road`: the `sidewalk` and `plaza` branches test keys the bag never has. -/
theorem determine_area_type_walkEdgeProps (e : RawEdge) :
    determine_area_type (walkEdgeProps e) = "path" ∨
      determine_area_type (walkEdgeProps e) = "road" := by
  unfold determine_area_type
  rw [walkEdgeProps_no_sidewalk, walkEdgeProps_no_leisure]
  simp only [truthy, Bool.false_eq_true, and_false, if_false]
  split_ifs <;> simp_all

/-! ### Unfolding lemmas for the processed document -/

theorem process_nodes_def (G : RawGraph) :
    (process_network_for_javascript G).nodes = walkNodes G.nodes := rfl

theorem process_edges_def (G : RawGraph) :
    (process_network_for_javascript G).edges =
      walkEdges (walkNodes G.nodes) (to_undirected G.edges) := rfl

theorem process_areas_def (G : RawGraph) :
    (process_network_for_javascript G).walkable_areas =
      walkAreas (walkEdges (walkNodes G.nodes) (to_undirected G.edges)) := rfl

theorem process_graph_def (G : RawGraph) :
    (process_network_for_javascript G).graph =
      buildWalkGraph (walkNodes G.nodes)
        (walkEdges (walkNodes G.nodes) (to_undirected G.edges)) := rfl

theorem initAdj_map_fst (nodes : List (String × PNode)) :
    ((nodes.map (fun p => (p.1, ([] : List AdjacencyEntry)))).map Prod.fst) =
      nodes.map Prod.fst := by
  rw [List.map_map]
  rfl

theorem totalAdjEntries_init (nodes : List (String × PNode)) :
    totalAdjEntries (nodes.map (fun p => (p.1, ([] : List AdjacencyEntry)))) = 0 := by
  unfold totalAdjEntries
  rw [List.map_map]
  induction nodes with
  | nil => rfl
  | cons p ps ih => simpa using ih

/-- Every exported edge's endpoints are keys of the node mapping. -/
theorem walkEdges_endpoints_in_nodes (nodes : List (String × PNode)) (es : List RawEdge)
    (pe : PEdge) (h : pe ∈ walkEdges nodes es) :
    (nodes.lookup pe.frm).isSome = true ∧ (nodes.lookup pe.to_).isSome = true := by
  obtain ⟨e, _, hproj⟩ := walkEdges_mem nodes es pe h
  have hc := projectEdge_some nodes e pe hproj
  refine ⟨?_, ?_⟩
  · rw [hc.1]; exact hc.2.2.2.2.1
  · rw [hc.2.1]; exact hc.2.2.2.2.2

/-! ### The spec's rule table for the area classifier

The specification presents the classifier as an ordered rule table with a
first-match-wins evaluation and default `"path"`.  We restate that table
verbatim and prove the code's `determine_area_type` equal to its first-match
evaluation. -/

def specAreaRules : List ((List (String × Val) → Bool) × String) :=
  [(fun p => decide (tagsGetD p "highway" (vStr "") = vStr "footway"), "path"),
   (fun p => decide (tagsGetD p "highway" (vStr "") = vStr "pedestrian"), "path"),
   (fun p => decide (tagsGetD p "highway" (vStr "") = vStr "living_street"), "road"),
   (fun p => decide (tagsGetD p "highway" (vStr "") = vStr "residential") &&
      truthy (tagsGetD p "sidewalk" vNull), "sidewalk"),
   (fun p => decide (tagsGetD p "highway" (vStr "") ∈
        [vStr "primary", vStr "secondary", vStr "tertiary"]) &&
      truthy (tagsGetD p "sidewalk" vNull), "sidewalk"),
   (fun p => decide (tagsGetD p "leisure" vNull = vStr "park"), "plaza")]

/-- First-match-wins evaluation of a rule table, defaulting to `"path"`. -/
def firstMatch : List ((List (String × Val) → Bool) × String) →
    List (String × Val) → String
  | [], _ => "path"
  | r :: rs, p => if r.1 p then r.2 else firstMatch rs p

/-! ### Concrete inputs used by witnesses and counterexamples -/

def nodeA : RawNode := { id := 1, y? := some 1, x? := some 2, tags := [] }

def nodeB : RawNode := { id := 2, y? := some 3, x? := some 4, tags := [] }

/-- A node missing its `y` coordinate tag: filtered out by the projector. -/
def nodeC : RawNode := { id := 3, y? := none, x? := some 5, tags := [] }

def eAB0 : RawEdge := { u := 1, v := 2, key := 0, length? := none, tags := [] }

/-- A parallel edge to `eAB0` distinguished only by its key. -/
def eAB1 : RawEdge := { u := 1, v := 2, key := 1, length? := none, tags := [] }

/-- An edge touching the coordinate-less node `nodeC`. -/
def eAC : RawEdge := { u := 1, v := 3, key := 0, length? := none, tags := [] }

/-- Two parallel edges between the same endpoints survive undirection. -/
def gPar : RawGraph := { nodes := [nodeA, nodeB], edges := [eAB0, eAB1] }

/-- One good edge, one edge with a filtered endpoint. -/
def gDemo : RawGraph := { nodes := [nodeA, nodeB, nodeC], edges := [eAB0, eAC] }

/-- The projected edge the pipeline produces from `eAB0` in `gDemo`. -/
def peAB : PEdge :=
  { id := "edge_1_2", frm := "1", to_ := "2",
    coordinates := [{ lat := 1, lng := 2 }, { lat := 3, lng := 4 }],
    properties := walkEdgeProps eAB0 }

def waAB : WalkableArea :=
  { id := "edge_1_2", type := "path",
    coordinates := [{ lat := 1, lng := 2 }, { lat := 3, lng := 4 }],
    properties := walkEdgeProps eAB0 }

/-! ### Claims -/

/-- **C3**: In keyed-multigraph mode, edges are processed in order and each
receives a distinct final key (the assigned keys of any run are pairwise
distinct); an edge not preceded by an edge of equal base key keeps the
undecorated base key, and an edge preceded by one of equal base key receives
the base key decorated with the first free numeric suffix `-j` (`j ≥ 1`, all
smaller suffixes being taken already). -/
theorem c3_key_disambiguation (es1 : List RawEdge) (e : RawEdge) (es2 : List RawEdge) :
    (((assignEdgeKeys (es1 ++ e :: es2) []).map Prod.snd).Nodup) ∧
    (assignEdgeKeys (es1 ++ e :: es2) [] =
      assignEdgeKeys es1 [] ++ (e, assignedKey es1 e) ::
        assignEdgeKeys es2
          (assignedKey es1 e :: ((assignEdgeKeys es1 []).map Prod.snd).reverse)) ∧
    ((∀ x ∈ es1, baseKey x ≠ baseKey e) → assignedKey es1 e = baseKey e) ∧
    ((∃ x ∈ es1, baseKey x = baseKey e) →
      ∃ j, 1 ≤ j ∧ assignedKey es1 e = suffixKey (baseKey e) j ∧
        suffixKey (baseKey e) j ∉ (assignEdgeKeys es1 []).map Prod.snd ∧
        ∀ m, 1 ≤ m → m < j →
          suffixKey (baseKey e) m ∈ (assignEdgeKeys es1 []).map Prod.snd) := by
  refine ⟨(assignEdgeKeys_nodup _ []).1, assignEdgeKeys_decomp es1 e es2, ?_, ?_⟩
  · intro hfirst
    unfold assignedKey
    apply freshKey_of_not_mem
    rw [List.mem_reverse]
    exact assigned_base_not_mem es1 e hfirst
  · intro ⟨x, hx, hbase⟩
    have hmem : baseKey e ∈ (assignEdgeKeys es1 []).map Prod.snd := by
      rcases base_mem_assigned es1 [] x hx with h | h
      · rwa [hbase] at h
      · simp at h
    unfold assignedKey
    obtain ⟨j, h1, h2, h3, h4⟩ := freshKey_of_mem _ _ (List.mem_reverse.mpr hmem)
    exact ⟨j, h1, h2, fun hc => h3 (List.mem_reverse.mpr hc),
      fun m hm1 hm2 => List.mem_reverse.mp (h4 m hm1 hm2)⟩

/-- Witness for C3 at a concrete duplicated base key. -/
theorem c3_key_disambiguation_witness :
    (∃ x ∈ [eAB0], baseKey x = baseKey eAB0) ∧
    (∃ j, 1 ≤ j ∧ assignedKey [eAB0] eAB0 = suffixKey (baseKey eAB0) j ∧
      suffixKey (baseKey eAB0) j ∉ (assignEdgeKeys [eAB0] []).map Prod.snd ∧
      ∀ m, 1 ≤ m → m < j →
        suffixKey (baseKey eAB0) m ∈ (assignEdgeKeys [eAB0] []).map Prod.snd) ∧
    (assignEdgeKeys [eAB0, eAB0] []).map Prod.snd = ["1-2-0", "1-2-0-1"] :=
  ⟨by decide, (c3_key_disambiguation [eAB0] eAB0 []).2.2.2 (by decide), by decide⟩

/-- **C1** (amended): In keyed-multigraph mode edge identifiers are always
unique.  In undirected-simple mode the `edge_u_v` identifiers are unique
provided no two exported edges share the same ordered endpoint pair; parallel
edges surviving undirection share both endpoints and therefore the
identifier (see the counterexample). -/
theorem c1_edge_id_uniqueness_amended :
    (∀ G : KGraph, ((to_graphology_json G).edges.map GEdge.key).Nodup) ∧
    (∀ G : RawGraph,
      ((process_network_for_javascript G).edges.Pairwise
          (fun a b => a.frm ≠ b.frm ∨ a.to_ ≠ b.to_)) →
        (((process_network_for_javascript G).edges.map PEdge.id).Nodup)) := by
  constructor
  · intro G
    unfold to_graphology_json
    rw [List.map_map]
    exact (assignEdgeKeys_nodup G.edges []).1
  · intro G hpw
    have hshape : ∀ pe ∈ (process_network_for_javascript G).edges,
        ∃ er : RawEdge, pe.frm = Nat.repr er.u ∧ pe.to_ = Nat.repr er.v ∧
          pe.id = edgeId er := by
      intro pe hpe
      rw [process_edges_def] at hpe
      obtain ⟨er, _, hproj⟩ := walkEdges_mem _ _ _ hpe
      have hc := projectEdge_some _ _ _ hproj
      exact ⟨er, hc.1, hc.2.1, hc.2.2.1⟩
    have hpw2 : List.Pairwise (fun a b => PEdge.id a ≠ PEdge.id b)
        (process_network_for_javascript G).edges := by
      refine hpw.imp_of_mem ?_
      intro a b ha hb hR hid
      obtain ⟨ea, hfa, hta, hia⟩ := hshape a ha
      obtain ⟨eb, hfb, htb, hib⟩ := hshape b hb
      rw [hia, hib] at hid
      obtain ⟨hu, hv⟩ := edgeId_inj ea eb hid
      rcases hR with h | h
      · exact h (by rw [hfa, hfb, hu])
      · exact h (by rw [hta, htb, hv])
    exact List.pairwise_map.mpr hpw2

/-- **C1** counterexample: two parallel raw edges (keys 0 and 1) between the
same endpoints both survive undirection and are exported with the same
identifier `edge_1_2` — edge identifiers are not unique in undirected-simple
mode. -/
theorem c1_counterexample :
    (process_network_for_javascript gPar).edges.length = 2 ∧
    ((process_network_for_javascript gPar).edges.map PEdge.id) =
      ["edge_1_2", "edge_1_2"] ∧
    ¬ (((process_network_for_javascript gPar).edges.map PEdge.id).Nodup) := by
  decide

/-- Witness for C1 on a graph whose exported edges have distinct endpoint
pairs. -/
theorem c1_edge_id_uniqueness_witness :
    ((process_network_for_javascript gDemo).edges.Pairwise
        (fun a b => a.frm ≠ b.frm ∨ a.to_ ≠ b.to_)) ∧
    (((process_network_for_javascript gDemo).edges.map PEdge.id).Nodup) :=
  ⟨by decide, c1_edge_id_uniqueness_amended.2 gDemo (by decide)⟩

/-- **C4**: For every exported edge `(u, v)` the adjacency mapping holds an
entry `⟨v, distance, edge_id⟩` in `u`'s list and an entry
`⟨u, distance, edge_id⟩` in `v`'s list, both carrying the edge's own length
value and id; in total exactly two entries exist per edge; and the mapping
has one (possibly empty) list per node-mapping key. -/
theorem c4_adjacency_symmetry (G : RawGraph) :
    (∀ pe ∈ (process_network_for_javascript G).edges,
      (⟨pe.to_, edgeDistance pe, pe.id⟩ : AdjacencyEntry) ∈
          lookupAdj (process_network_for_javascript G).graph pe.frm ∧
        (⟨pe.frm, edgeDistance pe, pe.id⟩ : AdjacencyEntry) ∈
          lookupAdj (process_network_for_javascript G).graph pe.to_) ∧
    totalAdjEntries (process_network_for_javascript G).graph =
      2 * (process_network_for_javascript G).edges.length ∧
    (process_network_for_javascript G).graph.map Prod.fst =
      (process_network_for_javascript G).nodes.map Prod.fst := by
  have hend : ∀ pe ∈ walkEdges (walkNodes G.nodes) (to_undirected G.edges),
      pe.frm ∈ (walkNodes G.nodes).map Prod.fst ∧
        pe.to_ ∈ (walkNodes G.nodes).map Prod.fst := by
    intro pe hpe
    have h := walkEdges_endpoints_in_nodes _ _ _ hpe
    exact ⟨(lookup_isSome_iff _ _).mp h.1, (lookup_isSome_iff _ _).mp h.2⟩
  refine ⟨?_, ?_, ?_⟩
  · intro pe hpe
    rw [process_graph_def, buildWalkGraph_eq_foldl]
    rw [process_edges_def] at hpe
    exact foldl_adjStep_mem_adds _ _
      (fun e' he' => by rw [initAdj_map_fst]; exact hend e' he') pe hpe
  · rw [process_graph_def, process_edges_def, buildWalkGraph_eq_foldl]
    rw [foldl_adjStep_total _ _
        (by rw [initAdj_map_fst]; exact walkNodes_keys_nodup G.nodes)
        (fun e' he' => by rw [initAdj_map_fst]; exact hend e' he'),
      totalAdjEntries_init]
    omega
  · rw [process_graph_def, process_nodes_def, buildWalkGraph_eq_foldl,
      foldl_adjStep_map_fst, initAdj_map_fst]

/-- Witness for C4 at the concrete exported edge of `gDemo`. -/
theorem c4_adjacency_symmetry_witness :
    peAB ∈ (process_network_for_javascript gDemo).edges ∧
    ((⟨peAB.to_, edgeDistance peAB, peAB.id⟩ : AdjacencyEntry) ∈
        lookupAdj (process_network_for_javascript gDemo).graph peAB.frm ∧
      (⟨peAB.frm, edgeDistance peAB, peAB.id⟩ : AdjacencyEntry) ∈
        lookupAdj (process_network_for_javascript gDemo).graph peAB.to_) :=
  ⟨by decide, (c4_adjacency_symmetry gDemo).1 peAB (by decide)⟩

/-- **C5**: Every exported edge has both endpoints in the node mapping; an id
absent from the node mapping is referenced by no exported edge; and (with the
raw node ids unique, as in any real graph) a raw node lacking a coordinate
tag is absent from the node mapping and no exported edge references it. -/
theorem c5_endpoint_closure (G : RawGraph) (h : (G.nodes.map RawNode.id).Nodup) :
    (∀ pe ∈ (process_network_for_javascript G).edges,
      (((process_network_for_javascript G).nodes.lookup pe.frm).isSome = true) ∧
        (((process_network_for_javascript G).nodes.lookup pe.to_).isSome = true)) ∧
    (∀ s, ((process_network_for_javascript G).nodes.lookup s) = none →
      ∀ pe ∈ (process_network_for_javascript G).edges, pe.frm ≠ s ∧ pe.to_ ≠ s) ∧
    (∀ n ∈ G.nodes, n.y? = none ∨ n.x? = none →
      ((process_network_for_javascript G).nodes.lookup (Nat.repr n.id) = none) ∧
        ∀ pe ∈ (process_network_for_javascript G).edges,
          pe.frm ≠ Nat.repr n.id ∧ pe.to_ ≠ Nat.repr n.id) := by
  have h1 : ∀ pe ∈ (process_network_for_javascript G).edges,
      (((process_network_for_javascript G).nodes.lookup pe.frm).isSome = true) ∧
        (((process_network_for_javascript G).nodes.lookup pe.to_).isSome = true) := by
    intro pe hpe
    rw [process_nodes_def]
    rw [process_edges_def] at hpe
    exact walkEdges_endpoints_in_nodes _ _ _ hpe
  have h2 : ∀ s, ((process_network_for_javascript G).nodes.lookup s) = none →
      ∀ pe ∈ (process_network_for_javascript G).edges, pe.frm ≠ s ∧ pe.to_ ≠ s := by
    intro s hs pe hpe
    have hp := h1 pe hpe
    constructor
    · intro he; rw [he, hs] at hp; simp at hp
    · intro he; rw [he, hs] at hp; simp at hp
  refine ⟨h1, h2, ?_⟩
  intro n hn hcoord
  have hnone : (walkNodes G.nodes).lookup (Nat.repr n.id) = none := by
    cases hl : (walkNodes G.nodes).lookup (Nat.repr n.id) with
    | none => rfl
    | some p =>
      exfalso
      have hk : Nat.repr n.id ∈ (walkNodes G.nodes).map Prod.fst :=
        (lookup_isSome_iff _ _).mp (by rw [hl]; rfl)
      rcases walkNodes_keys_origin G.nodes [] _ hk with hmem | ⟨n', hn', hkey, hy, hx⟩
      · simp at hmem
      · have hid : n'.id = n.id := repr_inj _ _ hkey.symm
        have hnn : n' = n := List.inj_on_of_nodup_map h hn' hn hid
        rcases hcoord with hc | hc
        · rw [hnn, hc] at hy; simp at hy
        · rw [hnn, hc] at hx; simp at hx
  refine ⟨by rw [process_nodes_def]; exact hnone, ?_⟩
  exact h2 (Nat.repr n.id) (by rw [process_nodes_def]; exact hnone)

/-- Witness for C5 at the coordinate-less node of `gDemo`. -/
theorem c5_endpoint_closure_witness :
    ((gDemo.nodes.map RawNode.id).Nodup) ∧ nodeC ∈ gDemo.nodes ∧
    (((process_network_for_javascript gDemo).nodes.lookup (Nat.repr nodeC.id) = none) ∧
      ∀ pe ∈ (process_network_for_javascript gDemo).edges,
        pe.frm ≠ Nat.repr nodeC.id ∧ pe.to_ ≠ Nat.repr nodeC.id) :=
  ⟨by decide, by decide,
    (c5_endpoint_closure gDemo (by decide)).2.2 nodeC (by decide) (Or.inl rfl)⟩

theorem writeSeq_take (ok : String → Bool) :
    ∀ fs : List (String × Json), (∃ k, (writeSeq ok fs).1 = fs.take k) ∧
      ((writeSeq ok fs).2 = true → (writeSeq ok fs).1 = fs) := by
  intro fs
  induction fs with
  | nil => exact ⟨⟨0, rfl⟩, fun _ => rfl⟩
  | cons f fs ih =>
    by_cases hok : ok f.1
    · obtain ⟨⟨k, hk⟩, hsucc⟩ := ih
      refine ⟨⟨k + 1, ?_⟩, ?_⟩
      · simp [writeSeq, hok, hk]
      · intro hflag
        simp only [writeSeq, hok, if_true] at hflag ⊢
        simp [hsucc (by simpa using hflag)]
    · refine ⟨⟨0, ?_⟩, ?_⟩
      · simp [writeSeq, hok]
      · intro hflag
        simp [writeSeq, hok] at hflag

/-- **C7** (amended): the three artifacts are written sequentially from the
same in-memory document; a write failure aborts the run before any further
file is written, so the set of written files is always a prefix of the
three-artifact list — but an already-written earlier file persists, so
"all or none" does not hold (see the counterexample). -/
theorem c7_export_sequential_amended (d : NetworkDocument) (ok : String → Bool) :
    (∃ k, (export_network d ok).1 = (exportContents d).take k) ∧
    ((export_network d ok).2 = true → (export_network d ok).1 = exportContents d) :=
  writeSeq_take ok (exportContents d)

/-- Witness for C7 under an all-successful write oracle. -/
theorem c7_export_sequential_witness :
    ((export_network (process_network_for_javascript { nodes := [], edges := [] })
        (fun _ => true)).2 = true) ∧
    (export_network (process_network_for_javascript { nodes := [], edges := [] })
        (fun _ => true)).1 =
      exportContents (process_network_for_javascript { nodes := [], edges := [] }) :=
  ⟨by decide, (c7_export_sequential_amended _ _).2 (by decide)⟩

/-- The write of the second artifact fails. -/
def okFailSecond : String → Bool := fun s => s == "kista_walk_network.json"

/-- **C7** counterexample: when the second write fails, the run has already
written the first file and aborts — a state with some but not all of the
mode's files written is reachable, refuting export atomicity. -/
theorem c7_counterexample :
    ((export_network (process_network_for_javascript { nodes := [], edges := [] })
        okFailSecond).1.map Prod.fst = ["kista_walk_network.json"]) ∧
    ((export_network (process_network_for_javascript { nodes := [], edges := [] })
        okFailSecond).1.map Prod.fst ≠ []) ∧
    ((export_network (process_network_for_javascript { nodes := [], edges := [] })
        okFailSecond).1.map Prod.fst ≠ exportFileNames) ∧
    (export_network (process_network_for_javascript { nodes := [], edges := [] })
        okFailSecond).2 = false := by
  decide

/-- **C8**: the empty raw graph produces a well-formed empty document:
zero counts and empty node mapping, edge list, walkable-area list and
adjacency mapping. -/
theorem c8_empty_graph :
    (process_network_for_javascript { nodes := [], edges := [] }).metadata.node_count = 0 ∧
    (process_network_for_javascript { nodes := [], edges := [] }).metadata.edge_count = 0 ∧
    (process_network_for_javascript { nodes := [], edges := [] }).nodes = [] ∧
    (process_network_for_javascript { nodes := [], edges := [] }).edges = [] ∧
    (process_network_for_javascript { nodes := [], edges := [] }).walkable_areas = [] ∧
    (process_network_for_javascript { nodes := [], edges := [] }).graph = [] := by
  decide

/-- **C9**: serializing any `NetworkDocument` to JSON and parsing it back
yields the identical document content (the decoder reads objects by field
lookup, so field order and whitespace are immaterial). -/
theorem c9_json_roundtrip (d : NetworkDocument) : docOfJson (docToJson d) = some d :=
  docOfJson_roundtrip d

/-- **C10** (implicit): the edge properties bag handed to the classifier has
exactly the seven fixed keys — never `sidewalk` or `leisure` — so every
exported walkable area is classified `"path"` or `"road"`; the `sidewalk`
and `plaza` branches are unreachable in the composed pipeline. -/
theorem c10_area_type_path_or_road (G : RawGraph) :
    (∀ e : RawEdge, (walkEdgeProps e).map Prod.fst =
      ["highway", "name", "length", "width", "surface", "lit", "foot"]) ∧
    ∀ w ∈ (process_network_for_javascript G).walkable_areas,
      w.type = "path" ∨ w.type = "road" := by
  refine ⟨fun e => walkEdgeProps_keys e, ?_⟩
  intro w hw
  rw [process_areas_def] at hw
  unfold walkAreas at hw
  simp only [List.mem_map] at hw
  obtain ⟨pe, hpe, rfl⟩ := hw
  show determine_area_type pe.properties = "path" ∨
    determine_area_type pe.properties = "road"
  obtain ⟨er, _, hproj⟩ := walkEdges_mem _ _ _ hpe
  have hc := projectEdge_some _ _ _ hproj
  rw [hc.2.2.2.1]
  exact determine_area_type_walkEdgeProps er

/-- Witness for C10 at the concrete walkable area of `gDemo`. -/
theorem c10_area_type_witness :
    waAB ∈ (process_network_for_javascript gDemo).walkable_areas ∧
    (waAB.type = "path" ∨ waAB.type = "road") :=
  ⟨by decide, (c10_area_type_path_or_road gDemo).2 waAB (by decide)⟩

theorem firstMatch_mem (labels : List String) (hpath : "path" ∈ labels) :
    ∀ rules : List ((List (String × Val) → Bool) × String),
      (∀ r ∈ rules, r.2 ∈ labels) → ∀ p, firstMatch rules p ∈ labels := by
  intro rules
  induction rules with
  | nil => intro _ p; exact hpath
  | cons r rs ih =>
    intro h p
    unfold firstMatch
    by_cases hc : r.1 p = true
    · rw [if_pos hc]; exact h r (by simp)
    · rw [if_neg hc]; exact ih (fun r' hr' => h r' (by simp [hr'])) p

/-- **C2**: `determine_area_type` is a pure function equal to the
first-match-wins evaluation of the spec's ordered rule table, its value is
always one of the four labels, and the spec's example bags classify as
stated. -/
theorem c2_area_classifier :
    (∀ p, determine_area_type p = firstMatch specAreaRules p) ∧
    (∀ p, determine_area_type p ∈ (["path", "road", "sidewalk", "plaza"] : List String)) ∧
    determine_area_type [("highway", vStr "residential"), ("sidewalk", vStr "yes")] =
      "sidewalk" ∧
    determine_area_type [("highway", vStr "footway")] = "path" ∧
    determine_area_type [("highway", vStr "living_street")] = "road" ∧
    determine_area_type [("leisure", vStr "park")] = "plaza" ∧
    determine_area_type [] = "path" := by
  have hEq : ∀ p, determine_area_type p = firstMatch specAreaRules p := by
    intro p
    simp only [determine_area_type, firstMatch, specAreaRules, Bool.and_eq_true,
      decide_eq_true_eq]
  have hMem : ∀ p,
      determine_area_type p ∈ (["path", "road", "sidewalk", "plaza"] : List String) := by
    intro p
    rw [hEq p]
    exact firstMatch_mem _ (by decide) specAreaRules (by decide) p
  exact ⟨hEq, hMem, by decide, by decide, by decide, by decide, by decide⟩

/-- **C6** (amended): node projection emits `{lat, lng, highway or
"intersection", name or ""}` in both modes; edge projection emits
`{highway or "path", length cast or 0, surface or ""; null, foot or "yes"}`,
and in undirected-simple mode `width` and `lit` default to null while `name`
defaults to the empty string (not null). -/
theorem c6_projection_defaults_amended :
    (∀ n : KNode,
      (kNodeAttrs n).lookup "lat" = some (vNum n.y) ∧
      (kNodeAttrs n).lookup "lng" = some (vNum n.x) ∧
      (kNodeAttrs n).lookup "highway" =
        some (tagsGetD n.tags "highway" (vStr "intersection")) ∧
      (kNodeAttrs n).lookup "name" = some (tagsGetD n.tags "name" (vStr ""))) ∧
    (∀ (n : RawNode) (y x : ℚ), n.y? = some y → n.x? = some x →
      projectNode n = some { id := Nat.repr n.id, lat := y, lng := x,
                             properties := walkNodeProps n.tags }) ∧
    (∀ tags,
      (walkNodeProps tags).lookup "highway" =
        some (tagsGetD tags "highway" (vStr "intersection")) ∧
      (walkNodeProps tags).lookup "name" = some (tagsGetD tags "name" (vStr ""))) ∧
    (∀ e : RawEdge,
      (kEdgeAttrs e).lookup "highway" = some (tagsGetD e.tags "highway" (vStr "path")) ∧
      (kEdgeAttrs e).lookup "length" = some (vNum (e.length?.getD 0)) ∧
      (kEdgeAttrs e).lookup "surface" = some (tagsGetD e.tags "surface" (vStr "")) ∧
      (kEdgeAttrs e).lookup "foot" = some (tagsGetD e.tags "foot" (vStr "yes"))) ∧
    (∀ e : RawEdge,
      (walkEdgeProps e).lookup "highway" =
        some (tagsGetD e.tags "highway" (vStr "path")) ∧
      (walkEdgeProps e).lookup "length" = some (vNum (e.length?.getD 0)) ∧
      (walkEdgeProps e).lookup "surface" = some (tagsGetD e.tags "surface" vNull) ∧
      (walkEdgeProps e).lookup "foot" = some (tagsGetD e.tags "foot" (vStr "yes")) ∧
      (walkEdgeProps e).lookup "width" = some (tagsGetD e.tags "width" vNull) ∧
      (walkEdgeProps e).lookup "lit" = some (tagsGetD e.tags "lit" vNull) ∧
      (walkEdgeProps e).lookup "name" = some (tagsGetD e.tags "name" (vStr ""))) := by
  refine ⟨fun n => ⟨rfl, rfl, rfl, rfl⟩, ?_, fun tags => ⟨rfl, rfl⟩,
    fun e => ⟨rfl, rfl, rfl, rfl⟩, fun e => ⟨rfl, rfl, rfl, rfl, rfl, rfl, rfl⟩⟩
  intro n y x hy hx
  unfold projectNode
  rw [hy, hx]

/-- Witness for C6 at a concrete node with both coordinates. -/
theorem c6_projection_defaults_witness :
    nodeA.y? = some 1 ∧ nodeA.x? = some 2 ∧
    projectNode nodeA = some { id := Nat.repr nodeA.id, lat := 1, lng := 2,
                               properties := walkNodeProps nodeA.tags } :=
  ⟨rfl, rfl, c6_projection_defaults_amended.2.1 nodeA 1 2 rfl rfl⟩

/-- **C6** counterexample: for an edge with no `name` tag the
undirected-simple projection emits the empty string, not null — `name` does
not get a null default as the claim states. -/
theorem c6_counterexample :
    eAB0.tags.lookup "name" = none ∧
    (walkEdgeProps eAB0).lookup "name" = some (vStr "") ∧
    (vStr "" : Val) ≠ vNull := by
  decide

end MMPR
